import Mathlib

/-!
# Verification of the xi2 editor core

A shallow embedding of the xi2 document-model core:

* `src/xi-druid/src/layout_rope.rs` — a height-augmented rope of layouts
  (`LayoutRope`), with a base metric (element count) and a height metric
  (fixed-point heights, 8 fractional bits, stored as `usize`; embedded as
  `Nat` raw fractions so summation is exact).
* `src/xi-druid/src/height_rope.rs` — the generic variant `Vector<T>`.
* `src/xi-text-core/src/edit.rs` — `EditCtx::insert` / `delete_backward`
  building a single composed delta over all selection regions.
* `src/xi-text-core/src/movement.rs` — `Movement::update_region` and
  `pos_info`.

The generic balanced-tree machinery lives in the external `xi_rope` crate;
a rope is embedded here by its leaf decomposition (`List` of leaves, each a
list of `(height, element)` pairs).  The per-leaf metric conversions
(`HeightMetric::to_base_units` / `from_base_units`), the leaf split
(`push_maybe_split`), and all the editor-core functions are translated
directly from the source; the tree-builder discipline that restores leaf
bounds, and the data types of the missing `selection.rs` / `backspace.rs`
modules, are modelled from the spec where so noted.
-/

namespace Xi2

/-- A leaf of the layout rope: a contiguous run of `(Height, T)` pairs.
Heights are raw fixed-point fractions (`Height.as_raw_frac`), i.e. `Nat`. -/
abbrev LayoutLeaf (α : Type) := List (Nat × α)

/-- `MIN_LEAF` from `layout_rope.rs`. -/
def MIN_LEAF : Nat := 16

/-- `MAX_LEAF` from `layout_rope.rs`. -/
def MAX_LEAF : Nat := 32

/-- `Leaf::is_ok_child` from `layout_rope.rs`: `self.data.len() >= MIN_LEAF`. -/
def isOkChild (l : LayoutLeaf α) : Prop := MIN_LEAF ≤ l.length

instance (l : LayoutLeaf α) : Decidable (isOkChild l) := by
  unfold isOkChild; infer_instance

/-- `NodeInfo::compute_info` from `layout_rope.rs`: sum the heights of the
pairs in a leaf, starting from `Height::ZERO`, by a running accumulation. -/
def leafHeight (l : LayoutLeaf α) : Nat :=
  l.foldl (fun acc p => acc + p.1) 0

/-- `HeightMetric::from_base_units` from `layout_rope.rs`: sum the heights of
`data[..in_base_units]`. -/
def fromBaseUnits (l : LayoutLeaf α) (inBaseUnits : Nat) : Nat :=
  leafHeight (l.take inBaseUnits)

/-- The scan loop of `HeightMetric::to_base_units` from `layout_rope.rs`:
`m1` is the remaining height budget, `m2` the number of elements passed;
stop at the first element whose inclusion would exceed the budget, or at a
zero-height element once the budget is exhausted. -/
def toBaseUnitsLoop : LayoutLeaf α → Nat → Nat → Nat
  | [], _, m2 => m2
  | p :: rest, m1, m2 =>
    if m1 = 0 ∨ m1 < p.1 then m2 else toBaseUnitsLoop rest (m1 - p.1) (m2 + 1)

/-- `HeightMetric::to_base_units` from `layout_rope.rs` (`m2` starts at 0). -/
def toBaseUnits (l : LayoutLeaf α) (inMeasuredUnits : Nat) : Nat :=
  toBaseUnitsLoop l inMeasuredUnits 0

/-- A `LayoutRope` embedded by its leaf decomposition.  The element type of
the layouts is abstract (`α`); only heights enter the metrics. -/
structure LayoutRope (α : Type) where
  leaves : List (LayoutLeaf α)
deriving DecidableEq

/-- The flattened element sequence of the rope. -/
def LayoutRope.elems (r : LayoutRope α) : LayoutLeaf α :=
  r.leaves.flatten

/-- `LayoutRope::len`: the number of layouts (base units). -/
def LayoutRope.len (r : LayoutRope α) : Nat :=
  r.elems.length

/-- `LayoutRope::height`: the root summary, the accumulated height of all
leaves (`NodeInfo::accumulate` adds the per-leaf `compute_info` sums). -/
def LayoutRope.height (r : LayoutRope α) : Nat :=
  (r.leaves.map leafHeight).sum

/-- `LayoutRope::height_of_index`: `count::<HeightMetric>(index)`, the height
metric prefix sum through `index` elements; within a leaf this is
`HeightMetric::from_base_units`, and the tree accumulates full-leaf measures,
so on the flattened sequence it is `fromBaseUnits` at `index`. -/
def LayoutRope.height_of_index (r : LayoutRope α) (index : Nat) : Nat :=
  fromBaseUnits r.elems index

/-- `LayoutRope::index_of_height`: `count_base_units::<HeightMetric>(h)`,
the first layout that contains the given height or is a zero-height layout
at that height; within a leaf this is `HeightMetric::to_base_units`,
extended over the flattened sequence. -/
def LayoutRope.index_of_height (r : LayoutRope α) (height : Nat) : Nat :=
  toBaseUnits r.elems height

/-- The cursor lookup behind `LayoutRope::get` and `Vector::get`: find the
leaf containing the index and apply the partial (`Option`-returning) slice
lookup `leaf.data.get(offset)`. -/
def getInLeaves : List (LayoutLeaf α) → Nat → Option (Nat × α)
  | [], _ => none
  | lf :: rest, i => if i < lf.length then lf.get? i else getInLeaves rest (i - lf.length)

/-- `LayoutRope::get` from `layout_rope.rs`: total via `Option`. -/
def LayoutRope.get (r : LayoutRope α) (index : Nat) : Option (Nat × α) :=
  getInLeaves r.leaves index

/-- `Vector<T>` from `height_rope.rs`, embedded the same way as
`LayoutRope` (the two files carry textually identical leaf and metric
code). -/
structure Vector (α : Type) where
  leaves : List (LayoutLeaf α)
deriving DecidableEq

/-- `Vector::len`. -/
def Vector.len (v : Vector α) : Nat :=
  v.leaves.flatten.length

/-- `Vector::get` from `height_rope.rs`: total via `Option`. -/
def Vector.get (v : Vector α) (index : Nat) : Option (Nat × α) :=
  getInLeaves v.leaves index

/-! ## Basic lemmas about the height metric -/

theorem foldl_add_acc (l : LayoutLeaf α) (n : Nat) :
    l.foldl (fun acc p => acc + p.1) n = n + (l.map Prod.fst).sum := by
  induction l generalizing n with
  | nil => simp
  | cons p rest ih =>
    simp only [List.foldl_cons, List.map_cons, List.sum_cons, ih]
    omega

theorem leafHeight_eq_sum (l : LayoutLeaf α) :
    leafHeight l = (l.map Prod.fst).sum := by
  simpa using foldl_add_acc l 0

theorem leafHeight_append (a b : LayoutLeaf α) :
    leafHeight (a ++ b) = leafHeight a + leafHeight b := by
  simp [leafHeight_eq_sum]

theorem fromBaseUnits_mono (l : LayoutLeaf α) {j k : Nat} (h : j ≤ k) :
    fromBaseUnits l j ≤ fromBaseUnits l k := by
  unfold fromBaseUnits
  rw [leafHeight_eq_sum, leafHeight_eq_sum]
  induction l generalizing j k with
  | nil => simp
  | cons p rest ih =>
    cases j with
    | zero => simp
    | succ j =>
      cases k with
      | zero => omega
      | succ k =>
        simp only [List.take_succ_cons, List.map_cons, List.sum_cons]
        exact Nat.add_le_add_left (ih (Nat.le_of_succ_le_succ h)) _

theorem fromBaseUnits_cons_succ (p : Nat × α) (rest : LayoutLeaf α) (k : Nat) :
    fromBaseUnits (p :: rest) (k + 1) = p.1 + fromBaseUnits rest k := by
  simp [fromBaseUnits, leafHeight_eq_sum]

theorem leafHeight_flatten (ls : List (LayoutLeaf α)) :
    leafHeight ls.flatten = (ls.map leafHeight).sum := by
  induction ls with
  | nil => simp [leafHeight]
  | cons lf rest ih => simp [leafHeight_append, ih]

/-- The dual-metric scan recovers the index it was given the prefix sum of,
as long as every strictly shorter prefix has strictly smaller height. -/
theorem toBaseUnitsLoop_prefix (l : LayoutLeaf α) :
    ∀ (i acc : Nat), i ≤ l.length →
      (∀ j, j < i → fromBaseUnits l j < fromBaseUnits l i) →
      toBaseUnitsLoop l (fromBaseUnits l i) acc = acc + i := by
  induction l with
  | nil =>
    intro i acc hi _
    have hz : i = 0 := by simpa using hi
    subst hz
    simp [toBaseUnitsLoop, fromBaseUnits, leafHeight]
  | cons p rest ih =>
    intro i acc hi hlt
    cases i with
    | zero =>
      have h0 : fromBaseUnits (p :: rest) 0 = 0 := by
        simp [fromBaseUnits, leafHeight]
      rw [h0]
      simp [toBaseUnitsLoop]
    | succ k =>
      have hpos : 0 < fromBaseUnits (p :: rest) (k + 1) := by
        have := hlt 0 (Nat.succ_pos k)
        have h0 : fromBaseUnits (p :: rest) 0 = 0 := by
          simp [fromBaseUnits, leafHeight]
        omega
      have hge : p.1 ≤ fromBaseUnits (p :: rest) (k + 1) := by
        rw [fromBaseUnits_cons_succ]; omega
      rw [fromBaseUnits_cons_succ] at hpos hge ⊢
      unfold toBaseUnitsLoop
      rw [if_neg (by omega)]
      have hsub : p.1 + fromBaseUnits rest k - p.1 = fromBaseUnits rest k := by
        omega
      rw [hsub]
      have hres := ih k (acc + 1) (by simpa using hi) (fun j hj => by
        have := hlt (j + 1) (by omega)
        rw [fromBaseUnits_cons_succ, fromBaseUnits_cons_succ] at this
        omega)
      rw [hres]
      omega

theorem getInLeaves_ge_length (ls : List (LayoutLeaf α)) :
    ∀ i, ls.flatten.length ≤ i → getInLeaves ls i = none := by
  induction ls with
  | nil => intro i _; rfl
  | cons lf rest ih =>
    intro i hi
    simp only [List.flatten_cons, List.length_append] at hi
    unfold getInLeaves
    rw [if_neg (by omega)]
    exact ih _ (by omega)

/-! ## Claim theorems for the layout rope metrics -/

/-- Claim C1: dual-metric round trip.  For every `LayoutRope` and every
index `i` with `0 ≤ i ≤ len()`, if no other boundary shares the cumulative
height of the first `i` elements (no zero-height tie at that boundary),
then `index_of_height (height_of_index i) = i`. -/
theorem C1_dual_metric_round_trip (r : LayoutRope α) (i : Nat)
    (hi : i ≤ r.len)
    (hnd : ∀ j, j ≤ r.len → r.height_of_index j = r.height_of_index i → j = i) :
    r.index_of_height (r.height_of_index i) = i := by
  have hlt : ∀ j, j < i → fromBaseUnits r.elems j < fromBaseUnits r.elems i := by
    intro j hj
    have hle : fromBaseUnits r.elems j ≤ fromBaseUnits r.elems i :=
      fromBaseUnits_mono _ (Nat.le_of_lt hj)
    rcases Nat.lt_or_ge (fromBaseUnits r.elems j) (fromBaseUnits r.elems i) with h | h
    · exact h
    · have heq : fromBaseUnits r.elems j = fromBaseUnits r.elems i := Nat.le_antisymm hle h
      have := hnd j (by omega) heq
      omega
  have := toBaseUnitsLoop_prefix r.elems i 0 hi hlt
  simpa [LayoutRope.index_of_height, LayoutRope.height_of_index, toBaseUnits] using this

/-- Claim C1 witness at a concrete rope (heights 256 and 512 across two
leaves), index 1. -/
theorem C1_dual_metric_round_trip_witness :
    (1 ≤ (LayoutRope.mk [[(256, 0)], [(512, 1)]]).len
      ∧ ∀ j, j ≤ (LayoutRope.mk [[(256, 0)], [(512, 1)]]).len →
          (LayoutRope.mk [[(256, 0)], [(512, 1)]]).height_of_index j
            = (LayoutRope.mk [[(256, 0)], [(512, 1)]]).height_of_index 1 → j = 1)
    ∧ (LayoutRope.mk [[(256, 0)], [(512, 1)]]).index_of_height
        ((LayoutRope.mk [[(256, 0)], [(512, 1)]]).height_of_index 1) = 1 := by
  refine ⟨⟨by decide, ?_⟩, ?_⟩
  · decide
  · exact C1_dual_metric_round_trip _ 1 (by decide) (by decide)

/-- Claim C8: monoid decomposition of the height metric.  For every rope and
split point `k ≤ n = len()`: `height_of_index n = height_of_index k +`
(height of `elems[k..n)`); `height_of_index i` is the exact fixed-point sum
of the heights of the first `i` elements; and `height()` is that sum at
`i = n`. -/
theorem C8_height_monoid_decomposition (r : LayoutRope α) (k : Nat)
    (_hk : k ≤ r.len) :
    r.height_of_index r.len
        = r.height_of_index k + leafHeight (r.elems.drop k)
      ∧ (∀ i, r.height_of_index i = ((r.elems.take i).map Prod.fst).sum)
      ∧ r.height = r.height_of_index r.len := by
  refine ⟨?_, ?_, ?_⟩
  · have h1 : r.elems.take r.len = r.elems := by
      simp [LayoutRope.len]
    unfold LayoutRope.height_of_index fromBaseUnits
    rw [h1]
    calc leafHeight r.elems
        = leafHeight (r.elems.take k ++ r.elems.drop k) := by
          rw [List.take_append_drop]
      _ = leafHeight (r.elems.take k) + leafHeight (r.elems.drop k) :=
          leafHeight_append _ _
  · intro i
    rw [LayoutRope.height_of_index, fromBaseUnits, leafHeight_eq_sum]
  · have h1 : r.elems.take r.len = r.elems := by
      simp [LayoutRope.len]
    unfold LayoutRope.height LayoutRope.height_of_index fromBaseUnits
    rw [h1, LayoutRope.elems, leafHeight_flatten]

/-- Claim C8 witness at a concrete rope, split point 1. -/
theorem C8_height_monoid_decomposition_witness :
    1 ≤ (LayoutRope.mk [[(256, 0), (0, 1), (512, 2)]] : LayoutRope Nat).len
    ∧ ((LayoutRope.mk [[(256, 0), (0, 1), (512, 2)]] : LayoutRope Nat).height_of_index
            (LayoutRope.mk [[(256, 0), (0, 1), (512, 2)]] : LayoutRope Nat).len
          = (LayoutRope.mk [[(256, 0), (0, 1), (512, 2)]] : LayoutRope Nat).height_of_index 1
            + leafHeight ((LayoutRope.mk [[(256, 0), (0, 1), (512, 2)]] : LayoutRope Nat).elems.drop 1)
        ∧ (∀ i, (LayoutRope.mk [[(256, 0), (0, 1), (512, 2)]] : LayoutRope Nat).height_of_index i
            = (((LayoutRope.mk [[(256, 0), (0, 1), (512, 2)]] : LayoutRope Nat).elems.take i).map Prod.fst).sum)
        ∧ (LayoutRope.mk [[(256, 0), (0, 1), (512, 2)]] : LayoutRope Nat).height
            = (LayoutRope.mk [[(256, 0), (0, 1), (512, 2)]] : LayoutRope Nat).height_of_index
                (LayoutRope.mk [[(256, 0), (0, 1), (512, 2)]] : LayoutRope Nat).len) :=
  ⟨by decide, C8_height_monoid_decomposition _ 1 (by decide)⟩

/-! ## Leaf-size invariant (claim C7)

`LayoutLeaf::push_maybe_split` is translated from `layout_rope.rs`.  The
tree builder and `Node::concat` that route mutations through it live in the
external `xi_rope` crate, so the builder discipline below is modelled from
the spec. -/

/-- `LayoutLeaf::push_maybe_split` from `layout_rope.rs`: extend `self` with
`other[start..stop]`; if the result exceeds `MAX_LEAF`, split it at its
midpoint `len / 2`, returning the right half. -/
def push_maybe_split (self other : LayoutLeaf α) (start stop : Nat) :
    LayoutLeaf α × Option (LayoutLeaf α) :=
  let d := self ++ (other.take stop).drop start
  if d.length ≤ MAX_LEAF then (d, none)
  else (d.take (d.length / 2), some (d.drop (d.length / 2)))

/-- Modelled from the spec: merging two adjacent leaves at a seam where one
is under-full routes the combined run through `push_maybe_split` over the
whole of the second leaf, yielding one leaf or a midpoint split pair
(spec §3: "a leaf exceeding `MAX_LEAF` after an append must split at its
midpoint before the invariant is restored"). -/
def mergeLeaves (a b : LayoutLeaf α) : List (LayoutLeaf α) :=
  match push_maybe_split a b 0 b.length with
  | (x, none) => [x]
  | (x, some y) => [x, y]

/-- Modelled from the spec: the builder appends a leaf to the leaf sequence,
restoring the leaf-size invariant lazily at the leaf boundary (spec §4.1:
"Mutations go through a builder so leaf-size invariants are restored lazily
at leaf boundaries"): if either the current last leaf or the incoming leaf
is under-full (`is_ok_child` fails), the two are merged via
`push_maybe_split`; otherwise the leaf is appended as a sibling. -/
def pushLeafAux : List (LayoutLeaf α) → LayoutLeaf α → List (LayoutLeaf α)
  | [], l => [l]
  | [last], l =>
    if isOkChild last ∧ isOkChild l then [last, l] else mergeLeaves last l
  | x :: y :: rest, l => x :: pushLeafAux (y :: rest) l

/-- Modelled from the spec: pushing an empty run is a no-op. -/
def pushLeaf (ls : List (LayoutLeaf α)) (l : LayoutLeaf α) : List (LayoutLeaf α) :=
  if l.isEmpty then ls else pushLeafAux ls l

/-- The leaf decomposition of `subseq`: the slice of elements `[a, b)` cut
along the original leaf boundaries (interior leaves whole, boundary leaves
trimmed), dropping empty pieces. -/
def sliceLeaves : List (LayoutLeaf α) → Nat → Nat → List (LayoutLeaf α)
  | [], _, _ => []
  | lf :: rest, a, b =>
    let piece := (lf.take b).drop a
    let tail := sliceLeaves rest (a - lf.length) (b - lf.length)
    if piece.isEmpty then tail else piece :: tail

/-- Build a rope from a sequence of leaf runs through the builder. -/
def buildFrom (pieces : List (LayoutLeaf α)) : List (LayoutLeaf α) :=
  pieces.foldl pushLeaf []

/-- `LayoutRope::push`: concat with the singleton leaf (the seam merge of
`Node::concat` is the builder push of the singleton). -/
def LayoutRope.push (r : LayoutRope α) (h : Nat) (item : α) : LayoutRope α :=
  ⟨pushLeaf r.leaves [(h, item)]⟩

/-- `LayoutRope::remove`: rebuild from the slices `[0, index)` and
`[index + 1, len)`. -/
def LayoutRope.remove (r : LayoutRope α) (index : Nat) : LayoutRope α :=
  ⟨buildFrom (sliceLeaves r.leaves 0 index
    ++ sliceLeaves r.leaves (index + 1) r.len)⟩

/-- `LayoutRope::set`: rebuild from `[0, index)`, the singleton leaf, and
`[index + 1, len)`. -/
def LayoutRope.set (r : LayoutRope α) (index : Nat) (h : Nat) (item : α) :
    LayoutRope α :=
  ⟨buildFrom (sliceLeaves r.leaves 0 index ++ [[(h, item)]]
    ++ sliceLeaves r.leaves (index + 1) r.len)⟩

/-- `LayoutRope::insert`: rebuild from `[0, index)`, the singleton leaf, and
`[index, len)`. -/
def LayoutRope.insert (r : LayoutRope α) (index : Nat) (h : Nat) (item : α) :
    LayoutRope α :=
  ⟨buildFrom (sliceLeaves r.leaves 0 index ++ [[(h, item)]]
    ++ sliceLeaves r.leaves index r.len)⟩

/-- The closed set of mutation operations of claim C7. -/
inductive RopeOp (α : Type) where
  | push : Nat → α → RopeOp α
  | insert : Nat → Nat → α → RopeOp α
  | remove : Nat → RopeOp α
  | set : Nat → Nat → α → RopeOp α

/-- Apply one mutation operation. -/
def applyOp (r : LayoutRope α) : RopeOp α → LayoutRope α
  | RopeOp.push h x => r.push h x
  | RopeOp.insert i h x => r.insert i h x
  | RopeOp.remove i => r.remove i
  | RopeOp.set i h x => r.set i h x

/-- Apply a sequence of mutation operations. -/
def applyOps (r : LayoutRope α) : List (RopeOp α) → LayoutRope α
  | [] => r
  | op :: rest => applyOps (applyOp r op) rest

/-- The leaf-size invariant: every leaf has length at most `MAX_LEAF`, and
every leaf except possibly the one at the boundary (the last) has length at
least `MIN_LEAF`. -/
def leavesOk (ls : List (LayoutLeaf α)) : Prop :=
  (∀ l ∈ ls, l.length ≤ MAX_LEAF) ∧ (∀ l ∈ ls.dropLast, MIN_LEAF ≤ l.length)

instance (ls : List (LayoutLeaf α)) : Decidable (leavesOk ls) := by
  unfold leavesOk; infer_instance

theorem mergeLeaves_length_ok (a b : LayoutLeaf α)
    (ha : a.length ≤ MAX_LEAF) (hb : b.length ≤ MAX_LEAF) :
    (∀ l ∈ mergeLeaves a b, l.length ≤ MAX_LEAF)
      ∧ (∀ l ∈ (mergeLeaves a b).dropLast, MIN_LEAF ≤ l.length) := by
  unfold mergeLeaves push_maybe_split
  have hfull : (b.take b.length).drop 0 = b := by simp
  rw [hfull]
  by_cases hle : (a ++ b).length ≤ MAX_LEAF
  · rw [if_pos hle]
    constructor
    · intro l hl
      simp only [List.mem_singleton] at hl
      subst hl; exact hle
    · intro l hl
      simp at hl
  · rw [if_neg hle]
    simp only [List.length_append] at hle ha hb ⊢
    have hlen : MAX_LEAF < a.length + b.length := by omega
    constructor
    · intro l hl
      simp only [List.mem_cons, List.mem_singleton, List.not_mem_nil, or_false] at hl
      rcases hl with h | h <;> subst h <;>
        simp only [List.length_take, List.length_drop, List.length_append] <;>
        · unfold MAX_LEAF at *; omega
    · intro l hl
      simp only [List.dropLast_cons₂, List.dropLast_single, List.mem_singleton] at hl
      subst hl
      simp only [List.length_take, List.length_append]
      unfold MIN_LEAF MAX_LEAF at *; omega

theorem pushLeafAux_ne_nil (ls : List (LayoutLeaf α)) (l : LayoutLeaf α) :
    pushLeafAux ls l ≠ [] := by
  match ls with
  | [] => simp [pushLeafAux]
  | [last] =>
    unfold pushLeafAux
    by_cases h : isOkChild last ∧ isOkChild l
    · rw [if_pos h]; simp
    · rw [if_neg h]
      unfold mergeLeaves
      rcases hs : push_maybe_split last l 0 l.length with ⟨x, o⟩
      cases o <;> simp
  | x :: y :: rest => simp [pushLeafAux]

theorem pushLeafAux_ok (ls : List (LayoutLeaf α)) (l : LayoutLeaf α)
    (hok : leavesOk ls) (hl : l.length ≤ MAX_LEAF) :
    leavesOk (pushLeafAux ls l) := by
  induction ls with
  | nil =>
    refine ⟨?_, ?_⟩
    · intro x hx
      simp only [pushLeafAux, List.mem_singleton] at hx
      subst hx; exact hl
    · intro x hx
      simp [pushLeafAux] at hx
  | cons hd tl ih =>
    match tl with
    | [] =>
      have hhd : hd.length ≤ MAX_LEAF := hok.1 hd (by simp)
      unfold pushLeafAux
      by_cases hcase : isOkChild hd ∧ isOkChild l
      · rw [if_pos hcase]
        refine ⟨?_, ?_⟩
        · intro x hx
          simp only [List.mem_cons, List.mem_singleton, List.not_mem_nil, or_false] at hx
          rcases hx with h | h <;> subst h <;> assumption
        · intro x hx
          simp only [List.dropLast_cons₂, List.dropLast_single, List.mem_singleton] at hx
          subst hx; exact hcase.1
      · rw [if_neg hcase]
        exact mergeLeaves_length_ok hd l hhd hl
    | nxt :: rest =>
      have hok' : leavesOk (nxt :: rest) := by
        refine ⟨fun x hx => hok.1 x (by simp [hx]), fun x hx => hok.2 x ?_⟩
        rw [List.dropLast_cons₂]
        simp [hx]
      have hres := ih hok'
      have hne := pushLeafAux_ne_nil (nxt :: rest) l
      have hhd : hd.length ≤ MAX_LEAF := hok.1 hd (by simp)
      have hhdmin : MIN_LEAF ≤ hd.length := by
        refine hok.2 hd ?_
        rw [List.dropLast_cons₂]
        simp
      unfold pushLeafAux
      refine ⟨?_, ?_⟩
      · intro x hx
        simp only [List.mem_cons] at hx
        rcases hx with h | h
        · subst h; exact hhd
        · exact hres.1 x h
      · intro x hx
        rw [List.dropLast_cons_of_ne_nil hne] at hx
        simp only [List.mem_cons] at hx
        rcases hx with h | h
        · subst h; exact hhdmin
        · exact hres.2 x h

theorem pushLeaf_ok (ls : List (LayoutLeaf α)) (l : LayoutLeaf α)
    (hok : leavesOk ls) (hl : l.length ≤ MAX_LEAF) :
    leavesOk (pushLeaf ls l) := by
  unfold pushLeaf
  by_cases he : l.isEmpty
  · rw [if_pos he]; exact hok
  · rw [if_neg he]; exact pushLeafAux_ok ls l hok hl

theorem buildFrom_ok_aux (pieces : List (LayoutLeaf α)) :
    ∀ acc : List (LayoutLeaf α), leavesOk acc →
      (∀ p ∈ pieces, p.length ≤ MAX_LEAF) →
      leavesOk (pieces.foldl pushLeaf acc) := by
  induction pieces with
  | nil => intro acc hacc _; exact hacc
  | cons p rest ih =>
    intro acc hacc hp
    simp only [List.foldl_cons]
    exact ih _ (pushLeaf_ok acc p hacc (hp p (by simp)))
      (fun q hq => hp q (by simp [hq]))

theorem buildFrom_ok (pieces : List (LayoutLeaf α))
    (hp : ∀ p ∈ pieces, p.length ≤ MAX_LEAF) :
    leavesOk (buildFrom pieces) :=
  buildFrom_ok_aux pieces [] ⟨by simp, by simp⟩ hp

theorem sliceLeaves_length_le (ls : List (LayoutLeaf α))
    (hls : ∀ l ∈ ls, l.length ≤ MAX_LEAF) :
    ∀ a b, ∀ p ∈ sliceLeaves ls a b, p.length ≤ MAX_LEAF := by
  induction ls with
  | nil => intro a b p hp; simp [sliceLeaves] at hp
  | cons lf rest ih =>
    intro a b p hp
    unfold sliceLeaves at hp
    have hlf : lf.length ≤ MAX_LEAF := hls lf (by simp)
    have hrest : ∀ l ∈ rest, l.length ≤ MAX_LEAF :=
      fun l hl => hls l (by simp [hl])
    by_cases he : ((lf.take b).drop a).isEmpty
    · rw [if_pos he] at hp
      exact ih hrest _ _ p hp
    · rw [if_neg he] at hp
      simp only [List.mem_cons] at hp
      rcases hp with h | h
      · subst h
        simp only [List.length_drop, List.length_take]
        omega
      · exact ih hrest _ _ p h

theorem applyOp_ok (r : LayoutRope α) (op : RopeOp α)
    (hok : leavesOk r.leaves) : leavesOk (applyOp r op).leaves := by
  have hmax : ∀ l ∈ r.leaves, l.length ≤ MAX_LEAF := hok.1
  cases op with
  | push h x =>
    exact pushLeaf_ok r.leaves [(h, x)] hok (by simp [MAX_LEAF])
  | insert i h x =>
    refine buildFrom_ok _ ?_
    intro p hp
    simp only [List.mem_append, List.mem_singleton] at hp
    rcases hp with (h1 | h2) | h3
    · exact sliceLeaves_length_le r.leaves hmax _ _ p h1
    · subst h2; simp [MAX_LEAF]
    · exact sliceLeaves_length_le r.leaves hmax _ _ p h3
  | remove i =>
    refine buildFrom_ok _ ?_
    intro p hp
    simp only [List.mem_append] at hp
    rcases hp with h1 | h2
    · exact sliceLeaves_length_le r.leaves hmax _ _ p h1
    · exact sliceLeaves_length_le r.leaves hmax _ _ p h2
  | set i h x =>
    refine buildFrom_ok _ ?_
    intro p hp
    simp only [List.mem_append, List.mem_singleton] at hp
    rcases hp with (h1 | h2) | h3
    · exact sliceLeaves_length_le r.leaves hmax _ _ p h1
    · subst h2; simp [MAX_LEAF]
    · exact sliceLeaves_length_le r.leaves hmax _ _ p h3

/-- Claim C7: leaf-size invariant.  Starting from any rope satisfying the
invariant (in particular the empty rope), after any sequence of
`push`/`insert`/`remove`/`set` operations every leaf has length at most
`MAX_LEAF = 32` and every leaf except possibly one at a boundary has length
at least `MIN_LEAF = 16`; and a leaf run exceeding `MAX_LEAF` after an
append is split by `push_maybe_split` at its midpoint `len / 2`. -/
theorem C7_leaf_size_invariant (r₀ : LayoutRope α) (ops : List (RopeOp α))
    (h₀ : leavesOk r₀.leaves) :
    leavesOk (applyOps r₀ ops).leaves
      ∧ (∀ self other : LayoutLeaf α,
          MAX_LEAF < (self ++ other).length →
          push_maybe_split self other 0 other.length
            = ((self ++ other).take ((self ++ other).length / 2),
               some ((self ++ other).drop ((self ++ other).length / 2)))) := by
  constructor
  · induction ops generalizing r₀ with
    | nil => exact h₀
    | cons op rest ih =>
      exact ih (applyOp r₀ op) (applyOp_ok r₀ op h₀)
  · intro self other hlen
    unfold push_maybe_split
    have hfull : (other.take other.length).drop 0 = other := by simp
    rw [hfull, if_neg (by omega)]

/-- Claim C7 witness: forty pushes onto the empty rope. -/
theorem C7_leaf_size_invariant_witness :
    leavesOk (LayoutRope.mk ([] : List (LayoutLeaf Unit))).leaves
    ∧ (leavesOk (applyOps (LayoutRope.mk ([] : List (LayoutLeaf Unit)))
          (List.replicate 40 (RopeOp.push 256 ()))).leaves
      ∧ (∀ self other : LayoutLeaf Unit,
          MAX_LEAF < (self ++ other).length →
          push_maybe_split self other 0 other.length
            = ((self ++ other).take ((self ++ other).length / 2),
               some ((self ++ other).drop ((self ++ other).length / 2))))) :=
  ⟨by decide,
   C7_leaf_size_invariant (LayoutRope.mk ([] : List (LayoutLeaf Unit)))
     (List.replicate 40 (RopeOp.push 256 ())) (by decide)⟩

/-- Claim C10: the one-past-the-end lookup is total via `Option`:
`r.get (r.len) = none` for every `LayoutRope`, and likewise for the
`height_rope` `Vector`, rather than faulting. -/
theorem C10_get_one_past_end_none (r : LayoutRope α) (v : Vector β) :
    r.get r.len = none ∧ v.get v.len = none :=
  ⟨getInLeaves_ge_length r.leaves r.len (Nat.le_refl _),
   getInLeaves_ge_length v.leaves v.len (Nat.le_refl _)⟩

/-! ## xi-text-core: selection, deltas and edits

`selection.rs` and `backspace.rs` are not under `src/`; `SelRegion`,
`Selection` and the backspace offset computation are modelled from the
spec (the latter as an abstract parameter).  The delta builder is the
boundary model of the external `xi_rope::DeltaBuilder` as `edit.rs`
consumes it. -/

/-- `xi_rope::Interval` as consumed by `edit.rs`: a closed-open interval of
buffer offsets. -/
structure Interval where
  start : Nat
  stop : Nat
deriving DecidableEq

/-- `Interval::is_empty` from xi-rope: `end <= start`. -/
def Interval.is_empty (iv : Interval) : Prop := iv.stop ≤ iv.start

instance (iv : Interval) : Decidable iv.is_empty := by
  unfold Interval.is_empty; infer_instance

/-- Modelled from the spec: `SelRegion { start, end, horiz: Option<f64> }`
over buffer offsets (`selection.rs` is not under `src/`).  `start` may
exceed `end`, encoding the active edge; `horiz` caches the last intentional
horizontal target (`f64` is embedded as `ℚ`; it is only stored and compared,
never computed with). -/
structure SelRegion where
  start : Nat
  stop : Nat
  horiz : Option ℚ
deriving DecidableEq

/-- Modelled from the spec: `start == end` denotes a caret. -/
def SelRegion.is_caret (r : SelRegion) : Prop := r.start = r.stop

instance (r : SelRegion) : Decidable r.is_caret := by
  unfold SelRegion.is_caret; infer_instance

/-- Modelled from the spec: the lower bound of the region, independent of
insertion direction. -/
def SelRegion.min (r : SelRegion) : Nat := Nat.min r.start r.stop

/-- Modelled from the spec: the upper bound of the region, independent of
insertion direction. -/
def SelRegion.max (r : SelRegion) : Nat := Nat.max r.start r.stop

/-- Modelled from the spec: a caret or range region constructor (no
horizontal anchor). -/
def SelRegion.new (start stop : Nat) : SelRegion := ⟨start, stop, none⟩

/-- Modelled from the spec: replace the horizontal anchor. -/
def SelRegion.with_horiz (r : SelRegion) (horiz : Option ℚ) : SelRegion :=
  { r with horiz := horiz }

/-- Modelled from the spec: a `Selection` is an ordered, non-overlapping
sequence of regions; iteration yields the regions in ascending
buffer-offset order, which is how `edit.rs` and `movement.rs` consume it. -/
abbrev Selection := List SelRegion

/-- The replacement list of an `xi_rope` delta as built by `edit.rs`: each
element replaces an interval with new content (text embedded as
`List Char`). -/
structure RopeDelta where
  base_len : Nat
  els : List (Interval × List Char)
deriving DecidableEq

/-- `xi_rope::DeltaBuilder` as consumed by `edit.rs`. -/
structure DeltaBuilder where
  base_len : Nat
  els : List (Interval × List Char)
deriving DecidableEq

/-- `DeltaBuilder::new(base_len)`. -/
def DeltaBuilder.new (base_len : Nat) : DeltaBuilder := ⟨base_len, []⟩

/-- `DeltaBuilder::replace(iv, rope)`: record one interval replacement. -/
def DeltaBuilder.replace (b : DeltaBuilder) (iv : Interval) (rope : List Char) :
    DeltaBuilder :=
  { b with els := b.els ++ [(iv, rope)] }

/-- `DeltaBuilder::delete(iv)`: replace with empty content. -/
def DeltaBuilder.delete (b : DeltaBuilder) (iv : Interval) : DeltaBuilder :=
  b.replace iv []

/-- `DeltaBuilder::is_empty`: no replacements recorded. -/
def DeltaBuilder.is_empty (b : DeltaBuilder) : Prop := b.els = []

instance (b : DeltaBuilder) : Decidable b.is_empty := by
  unfold DeltaBuilder.is_empty; infer_instance

/-- `DeltaBuilder::build`: the composed delta. -/
def DeltaBuilder.build (b : DeltaBuilder) : RopeDelta := ⟨b.base_len, b.els⟩

/-- `EditType` from `edit.rs`. -/
inductive EditType where
  | Other
  | InsertChars
  | InsertNewline
  | Indent
  | Delete
  | Undo
  | Redo
  | Transpose
  | Surround
deriving DecidableEq

/-- `EditRequest` from `edit.rs`. -/
structure EditRequest where
  edit : Option (RopeDelta × EditType)
  new_sel : Option Selection
deriving DecidableEq

/-- `EditRequest::new_edit`. -/
def EditRequest.new_edit (delta : RopeDelta) (edit_type : EditType) :
    EditRequest :=
  ⟨some (delta, edit_type), none⟩

/-- `EditRequest::nop`. -/
def EditRequest.nop : EditRequest := ⟨none, none⟩

/-- `EditCtx` from `edit.rs`: the text buffer (embedded as `List Char`; only
its length enters the delta) and the current selection. -/
structure EditCtx where
  text : List Char
  sel : Selection

/-- `EditCtx::insert` from `edit.rs`: one `replace` of `[min, max)` per
region, all composed in a single builder; always returns a new edit. -/
def EditCtx.insert (ctx : EditCtx) (text : List Char) : EditRequest :=
  let builder := ctx.sel.foldl
    (fun b region => b.replace ⟨region.min, region.max⟩ text)
    (DeltaBuilder.new ctx.text.length)
  EditRequest.new_edit builder.build EditType.InsertChars

/-- `EditCtx::delete_backward` from `edit.rs`.  The deletion start is
computed by `offset_for_delete_backwards` (in `backspace.rs`, not under
`src/`; grapheme-boundary aware, delegated to the text buffer), taken here
as an abstract parameter `offsetFor`.  A region whose interval comes out
empty emits nothing; if the builder stays empty the result is `nop`. -/
def EditCtx.delete_backward (ctx : EditCtx)
    (offsetFor : SelRegion → List Char → Nat) : EditRequest :=
  let builder := ctx.sel.foldl
    (fun b region =>
      let start := offsetFor region ctx.text
      let iv : Interval := ⟨start, region.max⟩
      if iv.is_empty then b else b.delete iv)
    (DeltaBuilder.new ctx.text.length)
  if ¬ builder.is_empty then
    EditRequest.new_edit builder.build EditType.Delete
  else
    EditRequest.nop

theorem insert_foldl_els (sel : Selection) (t : List Char) :
    ∀ b : DeltaBuilder,
      (sel.foldl (fun b region => b.replace ⟨region.min, region.max⟩ t) b).els
        = b.els ++ sel.map (fun r => (⟨r.min, r.max⟩, t)) := by
  induction sel with
  | nil => intro b; simp
  | cons r rest ih =>
    intro b
    rw [List.foldl_cons, ih]
    simp [DeltaBuilder.replace]

theorem insert_foldl_base_len (sel : Selection) (t : List Char) :
    ∀ b : DeltaBuilder,
      (sel.foldl (fun b region => b.replace ⟨region.min, region.max⟩ t) b).base_len
        = b.base_len := by
  induction sel with
  | nil => intro b; rfl
  | cons r rest ih => intro b; simp only [List.foldl_cons, ih]; rfl

/-- Claim C2: `EditCtx::insert` emits exactly one replacement per region,
replacing `[region.min(), region.max())` with the inserted text, and
composes all of them into one delta (a single `EditRequest` carrying a
single `RopeDelta`, so the buffer transitions once); a caret region yields
a zero-length interval, i.e. pure insertion. -/
theorem C2_insert_one_replacement_per_region (ctx : EditCtx) (t : List Char) :
    ctx.insert t
        = EditRequest.new_edit
            ⟨ctx.text.length, ctx.sel.map fun r => (⟨r.min, r.max⟩, t)⟩
            EditType.InsertChars
      ∧ ∀ r : SelRegion, r.is_caret → (Interval.mk r.min r.max).is_empty := by
  constructor
  · have h1 := insert_foldl_els ctx.sel t (DeltaBuilder.new ctx.text.length)
    have h2 := insert_foldl_base_len ctx.sel t (DeltaBuilder.new ctx.text.length)
    show EditRequest.new_edit
        ((ctx.sel.foldl (fun b region => b.replace ⟨region.min, region.max⟩ t)
          (DeltaBuilder.new ctx.text.length)).build) EditType.InsertChars = _
    have hb : (ctx.sel.foldl (fun b region => b.replace ⟨region.min, region.max⟩ t)
          (DeltaBuilder.new ctx.text.length)).build
        = (⟨ctx.text.length, ctx.sel.map fun r => (⟨r.min, r.max⟩, t)⟩ : RopeDelta) := by
      unfold DeltaBuilder.build
      rw [h1, h2]
      simp [DeltaBuilder.new]
    rw [hb]
  · intro r hr
    unfold SelRegion.is_caret at hr
    show r.max ≤ r.min
    unfold SelRegion.min SelRegion.max
    rw [hr]
    simp

/-- Claim C2 witness: a two-region selection (one caret, one range) over a
five-character buffer. -/
theorem C2_insert_one_replacement_per_region_witness :
    ((EditCtx.mk ['a', 'b', 'c', 'd', 'e']
        [SelRegion.mk 1 1 none, SelRegion.mk 4 2 none]).insert ['Q']
      = EditRequest.new_edit
          ⟨5, [(⟨1, 1⟩, ['Q']), (⟨2, 4⟩, ['Q'])]⟩ EditType.InsertChars)
    ∧ ((SelRegion.mk 1 1 none).is_caret
        ∧ (Interval.mk (SelRegion.mk 1 1 none).min (SelRegion.mk 1 1 none).max).is_empty) := by
  have h := C2_insert_one_replacement_per_region
    (EditCtx.mk ['a', 'b', 'c', 'd', 'e']
      [SelRegion.mk 1 1 none, SelRegion.mk 4 2 none]) ['Q']
  exact ⟨h.1, by decide, h.2 (SelRegion.mk 1 1 none) (by decide)⟩

theorem delete_foldl_nonempty (ctx : EditCtx)
    (offsetFor : SelRegion → List Char → Nat) :
    ∀ (sel : Selection) (b : DeltaBuilder),
      (∀ e ∈ b.els, ¬ e.1.is_empty) →
      ∀ e ∈ (sel.foldl (fun b region =>
          let start := offsetFor region ctx.text
          let iv : Interval := ⟨start, region.max⟩
          if iv.is_empty then b else b.delete iv) b).els,
        ¬ e.1.is_empty := by
  intro sel
  induction sel with
  | nil => intro b hb; exact hb
  | cons r rest ih =>
    intro b hb
    simp only [List.foldl_cons]
    by_cases hiv : (Interval.mk (offsetFor r ctx.text) r.max).is_empty
    · rw [if_pos hiv]
      exact ih b hb
    · rw [if_neg hiv]
      refine ih _ ?_
      intro e he
      simp only [DeltaBuilder.delete, DeltaBuilder.replace, List.mem_append,
        List.mem_singleton] at he
      rcases he with h | h
      · exact hb e h
      · subst h; exact hiv

theorem delete_foldl_all_empty (ctx : EditCtx)
    (offsetFor : SelRegion → List Char → Nat) :
    ∀ (sel : Selection) (b : DeltaBuilder),
      (∀ r ∈ sel, offsetFor r ctx.text = r.max) →
      (sel.foldl (fun b region =>
          let start := offsetFor region ctx.text
          let iv : Interval := ⟨start, region.max⟩
          if iv.is_empty then b else b.delete iv) b) = b := by
  intro sel
  induction sel with
  | nil => intro b _; rfl
  | cons r rest ih =>
    intro b hall
    simp only [List.foldl_cons]
    have hr : offsetFor r ctx.text = r.max := hall r (by simp)
    have hiv : (Interval.mk (offsetFor r ctx.text) r.max).is_empty := by
      show r.max ≤ offsetFor r ctx.text
      omega
    rw [if_pos hiv]
    exact ih b (fun q hq => hall q (by simp [hq]))

/-- Claim C3: `delete_backward` emits no replacement for a region whose
computed deletion start equals `region.max()` (every emitted replacement has
a nonempty interval), and when the computed start equals `region.max()` for
every region it returns the no-op result, leaving buffer and selection
unchanged. -/
theorem C3_delete_backward_empty_noop (ctx : EditCtx)
    (offsetFor : SelRegion → List Char → Nat) :
    (∀ d et, ctx.delete_backward offsetFor = EditRequest.new_edit d et →
        ∀ e ∈ d.els, ¬ e.1.is_empty)
      ∧ ((∀ r ∈ ctx.sel, offsetFor r ctx.text = r.max) →
          ctx.delete_backward offsetFor = EditRequest.nop) := by
  constructor
  · intro d et hd e he
    unfold EditCtx.delete_backward at hd
    by_cases hb : ¬ (ctx.sel.foldl (fun b region =>
        let start := offsetFor region ctx.text
        let iv : Interval := ⟨start, region.max⟩
        if iv.is_empty then b else b.delete iv)
        (DeltaBuilder.new ctx.text.length)).is_empty
    · rw [if_pos hb] at hd
      have hels := delete_foldl_nonempty ctx offsetFor ctx.sel
        (DeltaBuilder.new ctx.text.length) (by intro e he; simp [DeltaBuilder.new] at he)
      have : d = (ctx.sel.foldl (fun b region =>
          let start := offsetFor region ctx.text
          let iv : Interval := ⟨start, region.max⟩
          if iv.is_empty then b else b.delete iv)
          (DeltaBuilder.new ctx.text.length)).build := by
        have := congrArg EditRequest.edit hd
        simp only [EditRequest.new_edit, Option.some.injEq, Prod.mk.injEq] at this
        exact this.1.symm
      subst this
      exact hels e he
    · rw [if_neg hb] at hd
      have := congrArg EditRequest.edit hd
      simp [EditRequest.nop, EditRequest.new_edit] at this
  · intro hall
    unfold EditCtx.delete_backward
    rw [delete_foldl_all_empty ctx offsetFor ctx.sel _ hall]
    rw [if_neg (by simp [DeltaBuilder.is_empty, DeltaBuilder.new])]

/-- Claim C3 witness: a caret at offset 0 with the deletion start clamped to
the caret (nothing to delete) yields `nop`; a genuine deletion emits only
nonempty intervals. -/
theorem C3_delete_backward_empty_noop_witness :
    ((∀ r ∈ ([SelRegion.mk 0 0 none] : Selection),
        (fun (r : SelRegion) (_ : List Char) => r.max) r ['a', 'b', 'c'] = r.max)
      ∧ (EditCtx.mk ['a', 'b', 'c'] [SelRegion.mk 0 0 none]).delete_backward
          (fun r _ => r.max) = EditRequest.nop)
    ∧ ((EditCtx.mk ['a', 'b', 'c'] [SelRegion.mk 3 3 none]).delete_backward
          (fun r _ => r.max - 1)
        = EditRequest.new_edit
            (RopeDelta.mk 3 [(Interval.mk 2 3, ([] : List Char))]) EditType.Delete
      ∧ ∀ e ∈ (RopeDelta.mk 3 [(Interval.mk 2 3, ([] : List Char))]).els,
          ¬ e.1.is_empty) := by
  refine ⟨⟨by decide, ?_⟩, by decide, ?_⟩
  · exact (C3_delete_backward_empty_noop
      (EditCtx.mk ['a', 'b', 'c'] [SelRegion.mk 0 0 none])
      (fun r _ => r.max)).2 (by decide)
  · exact (C3_delete_backward_empty_noop
      (EditCtx.mk ['a', 'b', 'c'] [SelRegion.mk 3 3 none])
      (fun r _ => r.max - 1)).1
      (RopeDelta.mk 3 [(Interval.mk 2 3, ([] : List Char))]) EditType.Delete
      (by decide)

/-- Claim C4 counterexample: `insert` on a selection with zero regions does
NOT signal no-op — it returns a delta (with zero replacements) rather than
`EditRequest::nop`. -/
theorem C4_counterexample_insert_zero_regions :
    (EditCtx.mk [] ([] : Selection)).insert ['x'] ≠ EditRequest.nop
      ∧ ((EditCtx.mk [] ([] : Selection)).insert ['x']).edit
          = some (⟨0, []⟩, EditType.InsertChars) := by
  decide

/-- Claim C4 amended: only `delete_backward` signals no-op when no
replacements were emitted across all regions (in particular on a zero-region
selection); `insert` instead performs a trivial apply, returning a delta
with zero replacements on a zero-region selection. -/
theorem C4_noop_signalling (ctx : EditCtx)
    (offsetFor : SelRegion → List Char → Nat) (t : List Char)
    (hsel : ctx.sel = []) :
    ctx.delete_backward offsetFor = EditRequest.nop
      ∧ ctx.insert t
          = EditRequest.new_edit ⟨ctx.text.length, []⟩ EditType.InsertChars := by
  constructor
  · unfold EditCtx.delete_backward
    rw [hsel]
    simp only [List.foldl_nil]
    rw [if_neg (by simp [DeltaBuilder.is_empty, DeltaBuilder.new])]
  · unfold EditCtx.insert
    rw [hsel]
    rfl

/-- Claim C4 amended witness: the zero-region selection over a three-character
buffer. -/
theorem C4_noop_signalling_witness :
    (EditCtx.mk ['a', 'b', 'c'] ([] : Selection)).sel = ([] : Selection)
    ∧ ((EditCtx.mk ['a', 'b', 'c'] ([] : Selection)).delete_backward
          (fun r _ => r.max) = EditRequest.nop
      ∧ (EditCtx.mk ['a', 'b', 'c'] ([] : Selection)).insert ['x']
          = EditRequest.new_edit ⟨3, []⟩ EditType.InsertChars) :=
  ⟨rfl, C4_noop_signalling (EditCtx.mk ['a', 'b', 'c'] [])
    (fun r _ => r.max) ['x'] rfl⟩

/-! ## xi-text-core: the movement engine

`Movement::update_region` and `pos_info` from `movement.rs`.  The
`Measurement` capability and the buffer primitives (`prev_grapheme_offset`,
`line_of_offset`, ...) are external collaborators (spec §6) and are embedded
as abstract function records.  The `todo!()` fault on unimplemented movement
kinds is embedded as `none`; implemented kinds return `some`. -/

/-- The `Measurement` capability from `measurement.rs` (implemented by the
presentation layer; horizontal positions, `f64` in the source, are embedded
as `ℚ` — they are only stored and passed through, never computed with). -/
structure Measurement where
  n_visual_lines : Nat → Nat
  to_pos : Nat → Nat → ℚ × Nat
  from_pos : Nat → ℚ → Nat → Nat

/-- The buffer primitives `movement.rs` consumes from the external
`xi_rope::Rope` collaborator (spec §6). -/
structure TextBuffer where
  len : Nat
  prev_grapheme_offset : Nat → Option Nat
  next_grapheme_offset : Nat → Option Nat
  line_of_offset : Nat → Nat
  offset_of_line : Nat → Nat

/-- `Movement` from `movement.rs`: the full set of movement kinds. -/
inductive Movement where
  | Left
  | Right
  | LeftWord
  | RightWord
  | LeftOfLine
  | RightOfLine
  | Up
  | Down
  | UpPage
  | DownPage
  | UpExactPosition
  | DownExactPosition
  | StartOfParagraph
  | EndOfParagraph
  | EndOfParagraphKill
  | StartOfDocument
  | EndOfDocument
deriving DecidableEq

/-- `PosInfo` from `movement.rs`. -/
structure PosInfo where
  line_num : Nat
  horiz : ℚ
  line_start : Nat
  rel_line : Nat
deriving DecidableEq

/-- `pos_info` from `movement.rs`: resolve the anchor offset of a region
(`end` when extending, `min` moving up, `max` moving down), its logical
line and relative visual line, and the horizontal target — reusing an
existing anchor `r.horiz` over the freshly measured coordinate. -/
def pos_info (r : SelRegion) (text : TextBuffer) (measurement : Measurement)
    (move_up modify : Bool) : PosInfo :=
  let offset := if modify then r.stop else if move_up then r.min else r.max
  let line_num := text.line_of_offset offset
  let line_start := text.offset_of_line line_num
  let rel_offset := offset - line_start
  let mh := measurement.to_pos line_num rel_offset
  let horiz := r.horiz.getD mh.1
  ⟨line_num, horiz, line_start, mh.2⟩

/-- `Movement::update_region` from `movement.rs`.  The unimplemented arms
(`todo!()`, an unconditional panic) are embedded as `none`; the implemented
arms (`Left`, `Right`, `Up`, `Down`) return `some` of the new region
`SelRegion::new(if modify { r.start } else { offset }, offset)
.with_horiz(horiz)`. -/
def Movement.update_region (m : Movement) (r : SelRegion) (text : TextBuffer)
    (measurement : Measurement) (modify : Bool) : Option SelRegion :=
  let res : Option (Nat × Option ℚ) :=
    match m with
    | Movement.Left =>
      if r.is_caret ∨ modify then
        match text.prev_grapheme_offset r.stop with
        | some offset => some (offset, none)
        | none => some (0, r.horiz)
      else
        some (r.min, none)
    | Movement.Right =>
      if r.is_caret ∨ modify then
        match text.next_grapheme_offset r.stop with
        | some offset => some (offset, none)
        | none => some (r.stop, r.horiz)
      else
        some (r.max, none)
    | Movement.Up =>
      let info := pos_info r text measurement true modify
      if info.rel_line > 0 then
        let rel_offset := measurement.from_pos info.line_num info.horiz (info.rel_line - 1)
        some (info.line_start + rel_offset, some info.horiz)
      else if info.line_num = 0 then
        some (0, some info.horiz)
      else
        let prev_line := info.line_num - 1
        let n_lines := measurement.n_visual_lines prev_line
        let prev_line_start := text.offset_of_line prev_line
        let rel_offset := measurement.from_pos prev_line info.horiz (n_lines - 1)
        some (prev_line_start + rel_offset, some info.horiz)
    | Movement.Down =>
      let info := pos_info r text measurement false modify
      let n_lines := measurement.n_visual_lines info.line_num
      if info.rel_line + 1 < n_lines then
        let rel_offset := measurement.from_pos info.line_num info.horiz (info.rel_line + 1)
        some (info.line_start + rel_offset, some info.horiz)
      else
        let next_line_start := text.offset_of_line (info.line_num + 1)
        let offset :=
          if next_line_start = text.len then next_line_start
          else
            let rel_offset := measurement.from_pos (info.line_num + 1) info.horiz 0
            next_line_start + rel_offset
        some (offset, some info.horiz)
    | _ => none
  res.map fun p =>
    (SelRegion.new (if modify then r.start else p.1) p.1).with_horiz p.2

/-- Claim C5: vertical moves preserve the horizontal anchor.  If
`r.horiz = some h`, then `pos_info` resolves the horizontal target to `h`
itself (so every `from_pos` query of the `Up`/`Down` arms is made at `h`,
not at the freshly measured coordinate), and the region produced by
`Movement::Up` or `Movement::Down` again carries `horiz = some h` — hence a
caret moved `Down` twice with `horiz = some 50` queries `from_pos` with
`horiz = 50` both times. -/
theorem C5_vertical_horiz_anchor_preserved (r : SelRegion) (text : TextBuffer)
    (measurement : Measurement) (modify : Bool) (h : ℚ)
    (hh : r.horiz = some h) :
    (pos_info r text measurement true modify).horiz = h
      ∧ (pos_info r text measurement false modify).horiz = h
      ∧ (∀ r', Movement.Up.update_region r text measurement modify = some r' →
          r'.horiz = some h)
      ∧ (∀ r', Movement.Down.update_region r text measurement modify = some r' →
          r'.horiz = some h) := by
  have hup : (pos_info r text measurement true modify).horiz = h := by
    unfold pos_info
    simp [hh]
  have hdown : (pos_info r text measurement false modify).horiz = h := by
    unfold pos_info
    simp [hh]
  refine ⟨hup, hdown, ?_, ?_⟩
  · intro r' hr'
    unfold Movement.update_region at hr'
    by_cases h1 : (pos_info r text measurement true modify).rel_line > 0
    · rw [if_pos h1] at hr'
      simp only [Option.map_some', Option.some.injEq] at hr'
      rw [← hr']
      simp [SelRegion.with_horiz, SelRegion.new, hup]
    · rw [if_neg h1] at hr'
      by_cases h2 : (pos_info r text measurement true modify).line_num = 0
      · rw [if_pos h2] at hr'
        simp only [Option.map_some', Option.some.injEq] at hr'
        rw [← hr']
        simp [SelRegion.with_horiz, SelRegion.new, hup]
      · rw [if_neg h2] at hr'
        simp only [Option.map_some', Option.some.injEq] at hr'
        rw [← hr']
        simp [SelRegion.with_horiz, SelRegion.new, hup]
  · intro r' hr'
    unfold Movement.update_region at hr'
    by_cases h1 : (pos_info r text measurement false modify).rel_line + 1
        < measurement.n_visual_lines (pos_info r text measurement false modify).line_num
    · rw [if_pos h1] at hr'
      simp only [Option.map_some', Option.some.injEq] at hr'
      rw [← hr']
      simp [SelRegion.with_horiz, SelRegion.new, hdown]
    · rw [if_neg h1] at hr'
      simp only [Option.map_some', Option.some.injEq] at hr'
      rw [← hr']
      simp [SelRegion.with_horiz, SelRegion.new, hdown]

/-- A trivial single-line measurement used by the movement witnesses. -/
def measConst : Measurement := ⟨fun _ => 1, fun _ _ => (0, 0), fun _ _ _ => 0⟩

/-- A trivial empty text buffer used by the movement witnesses. -/
def textEmpty : TextBuffer := ⟨0, fun _ => none, fun _ => none, fun _ => 0, fun _ => 0⟩

/-- Claim C5 witness: a caret at 0 with `horiz = some 50`, moved `Down`. -/
theorem C5_vertical_horiz_anchor_preserved_witness :
    (SelRegion.mk 0 0 (some 50)).horiz = some 50
    ∧ ((pos_info (SelRegion.mk 0 0 (some 50)) textEmpty measConst true false).horiz = 50
      ∧ (pos_info (SelRegion.mk 0 0 (some 50)) textEmpty measConst false false).horiz = 50
      ∧ (∀ r', Movement.Up.update_region (SelRegion.mk 0 0 (some 50)) textEmpty measConst false = some r' →
          r'.horiz = some 50)
      ∧ (∀ r', Movement.Down.update_region (SelRegion.mk 0 0 (some 50)) textEmpty measConst false = some r' →
          r'.horiz = some 50)) :=
  ⟨rfl, C5_vertical_horiz_anchor_preserved (SelRegion.mk 0 0 (some 50))
    textEmpty measConst false 50 rfl⟩

/-- Claim C6: a first non-modify `Left` on a non-caret region collapses to a
caret at `r.min()`, and a non-modify `Right` to a caret at `r.max()`,
clearing the horizontal anchor. -/
theorem C6_left_right_collapse (r : SelRegion) (text : TextBuffer)
    (measurement : Measurement) (hnc : ¬ r.is_caret) :
    Movement.Left.update_region r text measurement false
        = some (SelRegion.mk r.min r.min none)
      ∧ Movement.Right.update_region r text measurement false
        = some (SelRegion.mk r.max r.max none) := by
  constructor <;>
    simp [Movement.update_region, hnc, SelRegion.new, SelRegion.with_horiz]

/-- Claim C6 witness: the region `[5, 2)`; non-modify `Left` yields a caret
at `min(5,2) = 2` and `Right` a caret at `5`. -/
theorem C6_left_right_collapse_witness :
    ¬ (SelRegion.mk 5 2 none).is_caret
    ∧ (Movement.Left.update_region (SelRegion.mk 5 2 none) textEmpty measConst false
        = some (SelRegion.mk (SelRegion.mk 5 2 none).min (SelRegion.mk 5 2 none).min none)
      ∧ Movement.Right.update_region (SelRegion.mk 5 2 none) textEmpty measConst false
        = some (SelRegion.mk (SelRegion.mk 5 2 none).max (SelRegion.mk 5 2 none).max none)) :=
  ⟨by decide, C6_left_right_collapse (SelRegion.mk 5 2 none) textEmpty measConst (by decide)⟩

/-- Claim C9: every movement kind other than `Left`, `Right`, `Up` and
`Down` faults unconditionally (`todo!()`, embedded as `none`) for all
inputs, rather than silently no-oping. -/
theorem C9_unimplemented_movements_fault (m : Movement)
    (h1 : m ≠ Movement.Left) (h2 : m ≠ Movement.Right)
    (h3 : m ≠ Movement.Up) (h4 : m ≠ Movement.Down)
    (r : SelRegion) (text : TextBuffer) (measurement : Measurement)
    (modify : Bool) :
    m.update_region r text measurement modify = none := by
  cases m <;> first
    | exact absurd rfl h1
    | exact absurd rfl h2
    | exact absurd rfl h3
    | exact absurd rfl h4
    | rfl

/-- Claim C9 witness: `LeftWord` on a caret at 0. -/
theorem C9_unimplemented_movements_fault_witness :
    (Movement.LeftWord ≠ Movement.Left ∧ Movement.LeftWord ≠ Movement.Right
      ∧ Movement.LeftWord ≠ Movement.Up ∧ Movement.LeftWord ≠ Movement.Down)
    ∧ Movement.LeftWord.update_region (SelRegion.mk 0 0 none) textEmpty measConst false
        = none :=
  ⟨⟨by decide, by decide, by decide, by decide⟩,
   C9_unimplemented_movements_fault Movement.LeftWord (by decide) (by decide)
     (by decide) (by decide) (SelRegion.mk 0 0 none) textEmpty measConst false⟩

end Xi2

